import Mathlib

/-!
Verification of the `regex-split` crate (src/lib.rs and src/bytes.rs).

The crate adds two splitting iterators to a compiled regex: `split_inclusive`
(delimiter kept at the tail of the preceding substring) and
`split_inclusive_left` (delimiter kept at the head of the following
substring).  The regex engine itself is an external collaborator: all the
iterators consume from it is an ordered sequence of match spans.  We embed the
iterator bodies faithfully, generically over the element type, because the
text family (src/lib.rs) and the byte family (src/bytes.rs) are textually
identical modulo the sliced sequence type (`&str` vs `&[u8]`); the text
family is instantiated at `Char` and the byte family at `Nat` (byte values).

Rust slicing `&text[lo..hi]` aborts the program when `lo > hi` or
`hi > text.len()`; we model that fallibly with `Option`, `none` for the abort,
so that the unreachability of the abort branch is a provable statement.
-/

/-- A match span `[start, stop)` produced by the external Match Source
(`regex::Matches`).  Rust calls the second field `end()`; `end` is a Lean
keyword, so the field is named `stop`. -/
structure Span where
  start : Nat
  stop : Nat
deriving Repr, DecidableEq

/-- Fields shared by the four Rust iterator structs `SplitInclusive` /
`SplitInclusiveLeft` of src/lib.rs and src/bytes.rs: the in-progress match
iterator (`finder`, modelled by the list of matches it has yet to yield),
the cursor `last`, and the borrowed input `text`. -/
structure SplitState (α : Type) where
  finder : List Span
  last : Nat
  text : List α
deriving Repr, DecidableEq

/-- Rust `&text[lo..hi]`: the elements of `text` with index in `[lo, hi)`.
Returns `none` (the program aborts) unless `lo ≤ hi ∧ hi ≤ text.length`. -/
def sliceRange (text : List α) (lo hi : Nat) : Option (List α) :=
  if lo ≤ hi ∧ hi ≤ text.length then some ((text.take hi).drop lo) else none

/-- Rust `&text[lo..]`: the elements of `text` from index `lo` on.
Returns `none` (the program aborts) unless `lo ≤ text.length`. -/
def sliceFrom (text : List α) (lo : Nat) : Option (List α) :=
  if lo ≤ text.length then some (text.drop lo) else none

/-- `<SplitInclusive as Iterator>::next` (src/lib.rs lines 79-96, and its
byte twin src/bytes.rs lines 29-47).  Result `none` models an abort inside a
slicing expression; `some (none, st)` models returning `None` (iterator
exhausted, state untouched); `some (some item, st)` models `Some(item)` with
the mutated state. -/
def SplitInclusive.next (st : SplitState α) :
    Option (Option (List α) × SplitState α) :=
  match st.finder with
  | [] =>
    if st.text.length < st.last then
      some (none, st)
    else
      (sliceFrom st.text st.last).map fun s =>
        (some s, { st with last := st.text.length + 1 })
  | m :: rest =>
    (sliceRange st.text st.last m.stop).map fun matched =>
      (some matched, { st with finder := rest, last := m.stop })

/-- `<SplitInclusiveLeft as Iterator>::next` (src/lib.rs lines 120-137, and
its byte twin src/bytes.rs lines 70-87).  Identical to
`SplitInclusive.next` except that the cut point on a match is `m.start`. -/
def SplitInclusiveLeft.next (st : SplitState α) :
    Option (Option (List α) × SplitState α) :=
  match st.finder with
  | [] =>
    if st.text.length < st.last then
      some (none, st)
    else
      (sliceFrom st.text st.last).map fun s =>
        (some s, { st with last := st.text.length + 1 })
  | m :: rest =>
    (sliceRange st.text st.last m.start).map fun matched =>
      (some matched, { st with finder := rest, last := m.start })

/-- `RegexSplit::split_inclusive` (src/lib.rs lines 166-172, src/bytes.rs
lines 116-122): a fresh iterator state with `last = 0`, where `spans` is the
sequence the freshly obtained Match Source (`find_iter`) will yield. -/
def split_inclusive (text : List α) (spans : List Span) : SplitState α :=
  { finder := spans, last := 0, text := text }

/-- `RegexSplit::split_inclusive_left` (src/lib.rs lines 197-203,
src/bytes.rs lines 147-153): same initial state, driven by
`SplitInclusiveLeft.next` instead. -/
def split_inclusive_left (text : List α) (spans : List Span) : SplitState α :=
  { finder := spans, last := 0, text := text }

/-- Pull an iterator (`step` is one of the two `next` functions) until it
signals exhaustion, collecting the emitted substrings, as
`Iterator::collect` does.  `none` propagates an abort; the fuel is a bound on
the number of pulls, always instantiated large enough to be irrelevant. -/
def collectWith (step : SplitState α → Option (Option (List α) × SplitState α)) :
    Nat → SplitState α → Option (List (List α))
  | 0, _ => some []
  | fuel + 1, st =>
    match step st with
    | none => none
    | some (none, _) => some []
    | some (some item, st') => (collectWith step fuel st').map (item :: ·)

/-- All substrings yielded by `split_inclusive(text)` with match sequence
`spans`, in emission order (`none` if any pull aborts). -/
def splitInclusiveItems (text : List α) (spans : List Span) :
    Option (List (List α)) :=
  collectWith SplitInclusive.next (spans.length + 2) (split_inclusive text spans)

/-- All substrings yielded by `split_inclusive_left(text)` with match
sequence `spans`, in emission order (`none` if any pull aborts). -/
def splitInclusiveLeftItems (text : List α) (spans : List Span) :
    Option (List (List α)) :=
  collectWith SplitInclusiveLeft.next (spans.length + 2)
    (split_inclusive_left text spans)

/-- The Match Source contract (spec section 3, "Match Span"): every span of
the list lies within `[lo, len]`, spans are in-bounds half-open ranges,
non-overlapping, and strictly increasing in `start` (after a span `[s, e)`
the next start is at least `max e (s + 1)`). -/
def SpansWF (len : Nat) : Nat → List Span → Prop
  | _, [] => True
  | lo, m :: rest =>
    lo ≤ m.start ∧ m.start ≤ m.stop ∧ m.stop ≤ len ∧
      SpansWF len (max m.stop (m.start + 1)) rest

instance instDecSpansWF (len : Nat) :
    (lo : Nat) → (spans : List Span) → Decidable (SpansWF len lo spans)
  | _, [] => .isTrue trivial
  | lo, m :: rest =>
    haveI : Decidable (SpansWF len (max m.stop (m.start + 1)) rest) :=
      instDecSpansWF len (max m.stop (m.start + 1)) rest
    inferInstanceAs (Decidable (lo ≤ m.start ∧ m.start ≤ m.stop ∧ m.stop ≤ len ∧
      SpansWF len (max m.stop (m.start + 1)) rest))

/-- The substrings of `text` cut at the ascending cut points `cuts`,
starting from offset `last`: `[last, c₁), [c₁, c₂), …, [cₖ, length)`. -/
def piecesAux (text : List α) (last : Nat) : List Nat → List (List α)
  | [] => [text.drop last]
  | c :: cs => (text.take c).drop last :: piecesAux text c cs

/-- Cut points are nondecreasing and bounded below by `last`. -/
def CutsLB (last : Nat) : List Nat → Prop
  | [] => True
  | c :: cs => last ≤ c ∧ CutsLB c cs

/-! ### Helper lemmas about slices and pieces -/

/-- Cutting `[last, c)` out of `L` and appending everything from `c` on
recovers everything from `last` on. -/
theorem take_drop_append (L : List α) (last c : Nat) (h : last ≤ c) :
    (L.take c).drop last ++ L.drop c = L.drop last := by
  rcases le_or_lt last L.length with hl | hl
  · conv_rhs => rw [← List.take_append_drop c L]
    rw [List.drop_append_eq_append_drop]
    have hz : last - (L.take c).length = 0 := by
      rw [List.length_take]; omega
    rw [hz, List.drop_zero]
  · have h1 : L.drop last = [] := List.drop_eq_nil_of_le (by omega)
    have h2 : (L.take c).drop last = [] := by
      apply List.drop_eq_nil_of_le
      rw [List.length_take]; omega
    have h3 : L.drop c = [] := List.drop_eq_nil_of_le (by omega)
    simp [h1, h2, h3]

/-- Concatenating the pieces cut at nondecreasing cut points recovers the
input from `last` on. -/
theorem piecesAux_flatten (text : List α) :
    ∀ cuts last, CutsLB last cuts →
      (piecesAux text last cuts).flatten = text.drop last := by
  intro cuts
  induction cuts with
  | nil => intro last _; simp [piecesAux]
  | cons c cs ih =>
    intro last h
    obtain ⟨h1, h2⟩ := h
    simp only [piecesAux, List.flatten_cons]
    rw [ih c h2, take_drop_append text last c h1]

/-- Cutting at `k` cut points yields `k + 1` pieces. -/
theorem piecesAux_length (text : List α) :
    ∀ cuts last, (piecesAux text last cuts).length = cuts.length + 1 := by
  intro cuts
  induction cuts with
  | nil => intro last; rfl
  | cons c cs ih => intro last; simp [piecesAux, ih]

/-- The Match Source contract is monotone in the lower bound. -/
theorem SpansWF.mono {len : Nat} :
    ∀ {spans : List Span} {lo lo' : Nat},
      lo' ≤ lo → SpansWF len lo spans → SpansWF len lo' spans := by
  intro spans
  cases spans with
  | nil => intro lo lo' _ _; trivial
  | cons m rest =>
    intro lo lo' hle h
    exact ⟨Nat.le_trans hle h.1, h.2⟩

/-- Under the contract, the match end offsets form a nondecreasing cut-point
sequence above any `last ≤ lo`. -/
theorem cutsLB_of_wf_stop {len : Nat} :
    ∀ {spans : List Span} {lo last : Nat},
      SpansWF len lo spans → last ≤ lo → CutsLB last (spans.map Span.stop) := by
  intro spans
  induction spans with
  | nil => intro lo last _ _; trivial
  | cons m rest ih =>
    intro lo last h hle
    obtain ⟨h1, h2, h3, h4⟩ := h
    exact ⟨by omega, ih h4 (Nat.le_max_left _ _)⟩

/-- Under the contract, the match start offsets form a nondecreasing
cut-point sequence above any `last ≤ lo`. -/
theorem cutsLB_of_wf_start {len : Nat} :
    ∀ {spans : List Span} {lo last : Nat},
      SpansWF len lo spans → last ≤ lo → CutsLB last (spans.map Span.start) := by
  intro spans
  induction spans with
  | nil => intro lo last _ _; trivial
  | cons m rest ih =>
    intro lo last h hle
    obtain ⟨h1, h2, h3, h4⟩ := h
    refine ⟨by omega, ih h4 ?_⟩
    exact Nat.le_trans (Nat.le_succ _) (Nat.le_max_right _ _)

/-! ### Characterization of the two iterators under the contract -/

/-- Under the Match Source contract, draining the inclusive-right iterator
never aborts and yields exactly the pieces of the input cut at the match end
offsets. -/
theorem collectWith_right_eq (text : List α) :
    ∀ (spans : List Span) (last : Nat),
      SpansWF text.length last spans → last ≤ text.length →
      collectWith SplitInclusive.next (spans.length + 2)
          { finder := spans, last := last, text := text } =
        some (piecesAux text last (spans.map Span.stop)) := by
  intro spans
  induction spans with
  | nil =>
    intro last _ hlast
    have h1 : ¬ text.length < last := Nat.not_lt.mpr hlast
    simp [collectWith, SplitInclusive.next, sliceFrom, h1, hlast, piecesAux]
  | cons m rest ih =>
    intro last h hlast
    obtain ⟨h1, h2, h3, h4⟩ := h
    have hslice : last ≤ m.stop ∧ m.stop ≤ text.length := ⟨by omega, h3⟩
    have hwf' : SpansWF text.length m.stop rest :=
      SpansWF.mono (Nat.le_max_left _ _) h4
    simp only [List.length_cons]
    show (match SplitInclusive.next
        { finder := m :: rest, last := last, text := text } with
      | none => none
      | some (none, _) => some []
      | some (some item, st') =>
        (collectWith SplitInclusive.next (rest.length + 2) st').map (item :: ·)) =
      some (piecesAux text last ((m :: rest).map Span.stop))
    rw [SplitInclusive.next]
    simp only [sliceRange, if_pos hslice]
    show (collectWith SplitInclusive.next (rest.length + 2)
        { finder := rest, last := m.stop, text := text }).map
        ((text.take m.stop).drop last :: ·) =
      some (piecesAux text last ((m :: rest).map Span.stop))
    rw [ih m.stop hwf' h3]
    rfl

/-- Under the Match Source contract, draining the inclusive-left iterator
never aborts and yields exactly the pieces of the input cut at the match
start offsets. -/
theorem collectWith_left_eq (text : List α) :
    ∀ (spans : List Span) (last : Nat),
      SpansWF text.length last spans → last ≤ text.length →
      collectWith SplitInclusiveLeft.next (spans.length + 2)
          { finder := spans, last := last, text := text } =
        some (piecesAux text last (spans.map Span.start)) := by
  intro spans
  induction spans with
  | nil =>
    intro last _ hlast
    have h1 : ¬ text.length < last := Nat.not_lt.mpr hlast
    simp [collectWith, SplitInclusiveLeft.next, sliceFrom, h1, hlast, piecesAux]
  | cons m rest ih =>
    intro last h hlast
    obtain ⟨h1, h2, h3, h4⟩ := h
    have hstart : m.start ≤ text.length := by omega
    have hslice : last ≤ m.start ∧ m.start ≤ text.length := ⟨h1, hstart⟩
    have hwf' : SpansWF text.length m.start rest :=
      SpansWF.mono (Nat.le_trans (Nat.le_succ _) (Nat.le_max_right _ _)) h4
    simp only [List.length_cons]
    show (match SplitInclusiveLeft.next
        { finder := m :: rest, last := last, text := text } with
      | none => none
      | some (none, _) => some []
      | some (some item, st') =>
        (collectWith SplitInclusiveLeft.next (rest.length + 2) st').map (item :: ·)) =
      some (piecesAux text last ((m :: rest).map Span.start))
    rw [SplitInclusiveLeft.next]
    simp only [sliceRange, if_pos hslice]
    show (collectWith SplitInclusiveLeft.next (rest.length + 2)
        { finder := rest, last := m.start, text := text }).map
        ((text.take m.start).drop last :: ·) =
      some (piecesAux text last ((m :: rest).map Span.start))
    rw [ih m.start hwf' hstart]
    rfl

/-- In the inclusive-right pieces, the piece at index `i` ends with the text
of the `i`-th match. -/
theorem piecesAux_right_delim (text : List α) :
    ∀ (spans : List Span) (last : Nat), SpansWF text.length last spans →
      ∀ (i : Nat) (hi : i < spans.length), ∃ t,
        (piecesAux text last (spans.map Span.stop))[i]? =
          some (t ++ (text.take spans[i].stop).drop spans[i].start) := by
  intro spans
  induction spans with
  | nil => intro last _ i hi; exact absurd hi (by simp)
  | cons m rest ih =>
    intro last h i hi
    obtain ⟨h1, h2, h3, h4⟩ := h
    cases i with
    | zero =>
      refine ⟨(text.take m.start).drop last, ?_⟩
      simp only [List.map_cons, piecesAux, List.getElem?_cons_zero,
        List.getElem_cons_zero]
      congr 1
      have key := take_drop_append (text.take m.stop) last m.start h1
      rw [List.take_take, min_eq_left h2] at key
      exact key.symm
    | succ i =>
      have hi' : i < rest.length := by simpa using hi
      obtain ⟨t, ht⟩ :=
        ih m.stop (SpansWF.mono (Nat.le_max_left _ _) h4) i hi'
      refine ⟨t, ?_⟩
      simpa [piecesAux, List.getElem_cons_succ] using ht

/-- In the inclusive-left pieces, the piece at index `i + 1` starts with the
text of the `i`-th match. -/
theorem piecesAux_left_delim (text : List α) :
    ∀ (spans : List Span) (last : Nat), SpansWF text.length last spans →
      ∀ (i : Nat) (hi : i < spans.length), ∃ t,
        (piecesAux text last (spans.map Span.start))[i + 1]? =
          some ((text.take spans[i].stop).drop spans[i].start ++ t) := by
  intro spans
  induction spans with
  | nil => intro last _ i hi; exact absurd hi (by simp)
  | cons m rest ih =>
    intro last h i hi
    obtain ⟨h1, h2, h3, h4⟩ := h
    cases i with
    | zero =>
      cases rest with
      | nil =>
        refine ⟨text.drop m.stop, ?_⟩
        simp only [List.map_cons, List.map_nil, piecesAux,
          List.getElem?_cons_succ, List.getElem?_cons_zero,
          List.getElem_cons_zero]
        congr 1
        exact (take_drop_append text m.start m.stop h2).symm
      | cons m' rest' =>
        refine ⟨(text.take m'.start).drop m.stop, ?_⟩
        have hms : m.stop ≤ m'.start := Nat.le_trans (Nat.le_max_left _ _) h4.1
        simp only [List.map_cons, piecesAux, List.getElem?_cons_succ,
          List.getElem?_cons_zero, List.getElem_cons_zero]
        congr 1
        have key := take_drop_append (text.take m'.start) m.start m.stop h2
        rw [List.take_take, min_eq_left hms] at key
        exact key.symm
    | succ i =>
      have hi' : i < rest.length := by simpa using hi
      obtain ⟨t, ht⟩ :=
        ih m.start
          (SpansWF.mono (Nat.le_trans (Nat.le_succ _) (Nat.le_max_right _ _)) h4)
          i hi'
      refine ⟨t, ?_⟩
      simpa [piecesAux, List.getElem_cons_succ] using ht

/-! ### Mapping the element type (byte family versus text family) -/

/-- Reinterpret a splitter state over a different element type by mapping the
input elements; offsets are untouched. -/
def SplitState.mapElems (f : α → β) (st : SplitState α) : SplitState β :=
  { finder := st.finder, last := st.last, text := st.text.map f }

/-- `SplitInclusive.next` commutes with mapping the input elements: the two
Rust families run the same offset bookkeeping. -/
theorem next_right_mapElems (f : α → β) (st : SplitState α) :
    SplitInclusive.next (st.mapElems f) =
      (SplitInclusive.next st).map
        (fun p => (p.1.map (List.map f), p.2.mapElems f)) := by
  rcases st with ⟨finder, last, text⟩
  cases finder with
  | nil =>
    simp only [SplitInclusive.next, SplitState.mapElems, List.length_map,
      sliceFrom]
    by_cases hl : text.length < last
    · simp [hl]
    · simp [hl, Nat.not_lt.mp hl, List.map_drop]
  | cons m rest =>
    simp only [SplitInclusive.next, SplitState.mapElems, sliceRange,
      List.length_map]
    by_cases hc : last ≤ m.stop ∧ m.stop ≤ text.length
    · simp [hc, List.map_drop, List.map_take, SplitState.mapElems]
    · simp [hc]

/-- `SplitInclusiveLeft.next` commutes with mapping the input elements. -/
theorem next_left_mapElems (f : α → β) (st : SplitState α) :
    SplitInclusiveLeft.next (st.mapElems f) =
      (SplitInclusiveLeft.next st).map
        (fun p => (p.1.map (List.map f), p.2.mapElems f)) := by
  rcases st with ⟨finder, last, text⟩
  cases finder with
  | nil =>
    simp only [SplitInclusiveLeft.next, SplitState.mapElems, List.length_map,
      sliceFrom]
    by_cases hl : text.length < last
    · simp [hl]
    · simp [hl, Nat.not_lt.mp hl, List.map_drop]
  | cons m rest =>
    simp only [SplitInclusiveLeft.next, SplitState.mapElems, sliceRange,
      List.length_map]
    by_cases hc : last ≤ m.start ∧ m.start ≤ text.length
    · simp [hc, List.map_drop, List.map_take, SplitState.mapElems]
    · simp [hc]

/-- Draining the inclusive-right iterator commutes with mapping the input
elements. -/
theorem collectWith_right_mapElems (f : α → β) :
    ∀ (fuel : Nat) (st : SplitState α),
      collectWith SplitInclusive.next fuel (st.mapElems f) =
        (collectWith SplitInclusive.next fuel st).map (List.map (List.map f)) := by
  intro fuel
  induction fuel with
  | zero => intro st; rfl
  | succ fuel ih =>
    intro st
    simp only [collectWith, next_right_mapElems f st]
    cases hn : SplitInclusive.next st with
    | none => rfl
    | some p =>
      rcases p with ⟨r, st'⟩
      cases r with
      | none => rfl
      | some item =>
        cases hc : collectWith SplitInclusive.next fuel st' <;>
          simp [ih st', hc]

/-- Draining the inclusive-left iterator commutes with mapping the input
elements. -/
theorem collectWith_left_mapElems (f : α → β) :
    ∀ (fuel : Nat) (st : SplitState α),
      collectWith SplitInclusiveLeft.next fuel (st.mapElems f) =
        (collectWith SplitInclusiveLeft.next fuel st).map (List.map (List.map f)) := by
  intro fuel
  induction fuel with
  | zero => intro st; rfl
  | succ fuel ih =>
    intro st
    simp only [collectWith, next_left_mapElems f st]
    cases hn : SplitInclusiveLeft.next st with
    | none => rfl
    | some p =>
      rcases p with ⟨r, st'⟩
      cases r with
      | none => rfl
      | some item =>
        cases hc : collectWith SplitInclusiveLeft.next fuel st' <;>
          simp [ih st', hc]

/-- The byte representation of ASCII-only text: each ASCII character is a
single byte whose value is its code point. -/
def asciiBytes (text : List Char) : List Nat :=
  text.map Char.toNat

/-! ### The claims -/

/-- C1: for every compiled pattern and every input, the inclusive-right
splitter (the statement is generic in the element type, so it covers the
text family of src/lib.rs and the byte family of src/bytes.rs alike) emits,
under the Match Source contract, substrings whose concatenation in emission
order is exactly the original input, and each matched delimiter appears once
at the tail of the substring that precedes it. -/
theorem C1_reconstruction_right (text : List α) (spans : List Span)
    (hwf : SpansWF text.length 0 spans) :
    ∃ items, splitInclusiveItems text spans = some items ∧
      items.flatten = text ∧
      ∀ (i : Nat) (hi : i < spans.length), ∃ t,
        items[i]? = some (t ++ (text.take spans[i].stop).drop spans[i].start) := by
  refine ⟨piecesAux text 0 (spans.map Span.stop), ?_, ?_, ?_⟩
  · simpa [splitInclusiveItems, split_inclusive] using
      collectWith_right_eq text spans 0 hwf (Nat.zero_le _)
  · rw [piecesAux_flatten text _ 0 (cutsLB_of_wf_stop hwf (Nat.le_refl 0))]
    exact List.drop_zero text
  · exact piecesAux_right_delim text spans 0 hwf

/-- Witness for C1 at the byte input `[7, 8, 9]` with one match `[1, 2)`. -/
theorem C1_reconstruction_right_witness :
    SpansWF ([7, 8, 9] : List Nat).length 0 [⟨1, 2⟩] ∧
    (∃ items, splitInclusiveItems ([7, 8, 9] : List Nat) [⟨1, 2⟩] = some items ∧
      items.flatten = [7, 8, 9] ∧
      ∀ (i : Nat) (hi : i < [(⟨1, 2⟩ : Span)].length), ∃ t,
        items[i]? = some (t ++ (([7, 8, 9] : List Nat).take
          ([(⟨1, 2⟩ : Span)][i]).stop).drop ([(⟨1, 2⟩ : Span)][i]).start)) :=
  ⟨by decide, C1_reconstruction_right [7, 8, 9] [⟨1, 2⟩] (by decide)⟩

/-- C2: for every compiled pattern and every input, the inclusive-left
splitter (generic in the element type: text family and byte family alike)
emits, under the Match Source contract, substrings whose concatenation in
emission order is exactly the original input, and each matched delimiter
appears once at the head of the substring that follows it. -/
theorem C2_reconstruction_left (text : List α) (spans : List Span)
    (hwf : SpansWF text.length 0 spans) :
    ∃ items, splitInclusiveLeftItems text spans = some items ∧
      items.flatten = text ∧
      ∀ (i : Nat) (hi : i < spans.length), ∃ t,
        items[i + 1]? = some ((text.take spans[i].stop).drop spans[i].start ++ t) := by
  refine ⟨piecesAux text 0 (spans.map Span.start), ?_, ?_, ?_⟩
  · simpa [splitInclusiveLeftItems, split_inclusive_left] using
      collectWith_left_eq text spans 0 hwf (Nat.zero_le _)
  · rw [piecesAux_flatten text _ 0 (cutsLB_of_wf_start hwf (Nat.le_refl 0))]
    exact List.drop_zero text
  · exact piecesAux_left_delim text spans 0 hwf

/-- Witness for C2 at the byte input `[7, 8, 9]` with one match `[1, 2)`. -/
theorem C2_reconstruction_left_witness :
    SpansWF ([7, 8, 9] : List Nat).length 0 [⟨1, 2⟩] ∧
    (∃ items, splitInclusiveLeftItems ([7, 8, 9] : List Nat) [⟨1, 2⟩] = some items ∧
      items.flatten = [7, 8, 9] ∧
      ∀ (i : Nat) (hi : i < [(⟨1, 2⟩ : Span)].length), ∃ t,
        items[i + 1]? = some ((([7, 8, 9] : List Nat).take
          ([(⟨1, 2⟩ : Span)][i]).stop).drop ([(⟨1, 2⟩ : Span)][i]).start ++ t)) :=
  ⟨by decide, C2_reconstruction_left [7, 8, 9] [⟨1, 2⟩] (by decide)⟩

/-- C3: under the Match Source contract, both splitters emit exactly
`(number of matches) + 1` substrings before exhaustion — the same count for
the same match-span sequence — and with zero matches the single item is the
whole input. -/
theorem C3_item_count (text : List α) (spans : List Span)
    (hwf : SpansWF text.length 0 spans) :
    ∃ itemsR itemsL,
      splitInclusiveItems text spans = some itemsR ∧
      splitInclusiveLeftItems text spans = some itemsL ∧
      itemsR.length = spans.length + 1 ∧
      itemsL.length = spans.length + 1 ∧
      (spans = [] → itemsR = [text] ∧ itemsL = [text]) := by
  refine ⟨piecesAux text 0 (spans.map Span.stop),
    piecesAux text 0 (spans.map Span.start), ?_, ?_, ?_, ?_, ?_⟩
  · simpa [splitInclusiveItems, split_inclusive] using
      collectWith_right_eq text spans 0 hwf (Nat.zero_le _)
  · simpa [splitInclusiveLeftItems, split_inclusive_left] using
      collectWith_left_eq text spans 0 hwf (Nat.zero_le _)
  · rw [piecesAux_length]; simp
  · rw [piecesAux_length]; simp
  · intro h
    subst h
    simp [piecesAux]

/-- Witness for C3 at the byte input `[5]` with zero matches. -/
theorem C3_item_count_witness :
    SpansWF ([5] : List Nat).length 0 [] ∧
    (∃ itemsR itemsL,
      splitInclusiveItems ([5] : List Nat) [] = some itemsR ∧
      splitInclusiveLeftItems ([5] : List Nat) [] = some itemsL ∧
      itemsR.length = ([] : List Span).length + 1 ∧
      itemsL.length = ([] : List Span).length + 1 ∧
      (([] : List Span) = [] → itemsR = [[5]] ∧ itemsL = [[5]])) :=
  ⟨trivial, C3_item_count [5] [] trivial⟩

/-! ### Step lemmas for the two `next` functions -/

/-- After the trailing substring has been emitted (`last > length`), the
inclusive-right `next` signals `None` and leaves the state untouched. -/
theorem next_right_nil_done (last : Nat) (text : List α)
    (h : text.length < last) :
    SplitInclusive.next (⟨[], last, text⟩ : SplitState α) =
      some (none, ⟨[], last, text⟩) := by
  simp [SplitInclusive.next, h]

/-- On first observing Match Source exhaustion (`last ≤ length`), the
inclusive-right `next` emits the trailing substring and moves `last` past
the input length. -/
theorem next_right_nil_drain (last : Nat) (text : List α)
    (h : last ≤ text.length) :
    SplitInclusive.next (⟨[], last, text⟩ : SplitState α) =
      some (some (text.drop last), ⟨[], text.length + 1, text⟩) := by
  simp [SplitInclusive.next, sliceFrom, h, Nat.not_lt.mpr h]

/-- On a match with valid offsets, the inclusive-right `next` emits
`[last, stop)` and sets `last` to the match end. -/
theorem next_right_cons (m : Span) (rest : List Span) (last : Nat)
    (text : List α) (h1 : last ≤ m.stop) (h2 : m.stop ≤ text.length) :
    SplitInclusive.next (⟨m :: rest, last, text⟩ : SplitState α) =
      some (some ((text.take m.stop).drop last), ⟨rest, m.stop, text⟩) := by
  simp [SplitInclusive.next, sliceRange, h1, h2]

/-- After the trailing substring has been emitted, the inclusive-left `next`
signals `None` and leaves the state untouched. -/
theorem next_left_nil_done (last : Nat) (text : List α)
    (h : text.length < last) :
    SplitInclusiveLeft.next (⟨[], last, text⟩ : SplitState α) =
      some (none, ⟨[], last, text⟩) := by
  simp [SplitInclusiveLeft.next, h]

/-- On first observing Match Source exhaustion, the inclusive-left `next`
emits the trailing substring and moves `last` past the input length. -/
theorem next_left_nil_drain (last : Nat) (text : List α)
    (h : last ≤ text.length) :
    SplitInclusiveLeft.next (⟨[], last, text⟩ : SplitState α) =
      some (some (text.drop last), ⟨[], text.length + 1, text⟩) := by
  simp [SplitInclusiveLeft.next, sliceFrom, h, Nat.not_lt.mpr h]

/-- On a match with valid offsets, the inclusive-left `next` emits
`[last, start)` and sets `last` to the match start. -/
theorem next_left_cons (m : Span) (rest : List Span) (last : Nat)
    (text : List α) (h1 : last ≤ m.start) (h2 : m.start ≤ text.length) :
    SplitInclusiveLeft.next (⟨m :: rest, last, text⟩ : SplitState α) =
      some (some ((text.take m.start).drop last), ⟨rest, m.start, text⟩) := by
  simp [SplitInclusiveLeft.next, sliceRange, h1, h2]

/-- The inclusive-right `next` signals `None` only in the terminal
configuration: Match Source drained and `last` past the input length; the
state then comes back unchanged. -/
theorem next_right_none_inv (st st' : SplitState α)
    (h : SplitInclusive.next st = some (none, st')) :
    st.finder = [] ∧ st.text.length < st.last ∧ st' = st := by
  rcases st with ⟨finder, last, text⟩
  cases finder with
  | nil =>
    by_cases hl : text.length < last
    · rw [next_right_nil_done last text hl] at h
      simp only [Option.some.injEq, Prod.mk.injEq] at h
      exact ⟨rfl, hl, h.2.symm⟩
    · exfalso
      rw [next_right_nil_drain last text (Nat.not_lt.mp hl)] at h
      simp at h
  | cons m rest =>
    exfalso
    simp only [SplitInclusive.next] at h
    rcases hs : sliceRange text last m.stop with _ | s <;> rw [hs] at h <;>
      simp at h

/-- The inclusive-left `next` signals `None` only in the terminal
configuration, and the state then comes back unchanged. -/
theorem next_left_none_inv (st st' : SplitState α)
    (h : SplitInclusiveLeft.next st = some (none, st')) :
    st.finder = [] ∧ st.text.length < st.last ∧ st' = st := by
  rcases st with ⟨finder, last, text⟩
  cases finder with
  | nil =>
    by_cases hl : text.length < last
    · rw [next_left_nil_done last text hl] at h
      simp only [Option.some.injEq, Prod.mk.injEq] at h
      exact ⟨rfl, hl, h.2.symm⟩
    · exfalso
      rw [next_left_nil_drain last text (Nat.not_lt.mp hl)] at h
      simp at h
  | cons m rest =>
    exfalso
    simp only [SplitInclusiveLeft.next] at h
    rcases hs : sliceRange text last m.start with _ | s <;> rw [hs] at h <;>
      simp at h

/-- Inversion: a successful inclusive-right step on a pending match forces
the slice bounds to be valid and determines the output and the new state. -/
theorem next_right_cons_inv (m : Span) (rest : List Span) (last : Nat)
    (text : List α) (r : Option (List α)) (st' : SplitState α)
    (h : SplitInclusive.next (⟨m :: rest, last, text⟩ : SplitState α) =
      some (r, st')) :
    last ≤ m.stop ∧ m.stop ≤ text.length ∧
      r = some ((text.take m.stop).drop last) ∧ st' = ⟨rest, m.stop, text⟩ := by
  simp only [SplitInclusive.next, sliceRange] at h
  by_cases hc : last ≤ m.stop ∧ m.stop ≤ text.length
  · rw [if_pos hc] at h
    simp only [Option.map_some', Option.some.injEq, Prod.mk.injEq] at h
    exact ⟨hc.1, hc.2, h.1.symm, h.2.symm⟩
  · rw [if_neg hc] at h
    exact absurd h (by simp)

/-- Inversion: a successful inclusive-left step on a pending match forces
the slice bounds to be valid and determines the output and the new state. -/
theorem next_left_cons_inv (m : Span) (rest : List Span) (last : Nat)
    (text : List α) (r : Option (List α)) (st' : SplitState α)
    (h : SplitInclusiveLeft.next (⟨m :: rest, last, text⟩ : SplitState α) =
      some (r, st')) :
    last ≤ m.start ∧ m.start ≤ text.length ∧
      r = some ((text.take m.start).drop last) ∧ st' = ⟨rest, m.start, text⟩ := by
  simp only [SplitInclusiveLeft.next, sliceRange] at h
  by_cases hc : last ≤ m.start ∧ m.start ≤ text.length
  · rw [if_pos hc] at h
    simp only [Option.map_some', Option.some.injEq, Prod.mk.injEq] at h
    exact ⟨hc.1, hc.2, h.1.symm, h.2.symm⟩
  · rw [if_neg hc] at h
    exact absurd h (by simp)

/-- Inversion: a step of either family on a drained Match Source either
signals `None` on an unchanged terminal state or emits the trailing
substring. -/
theorem next_right_nil_inv (last : Nat) (text : List α) (r : Option (List α))
    (st' : SplitState α)
    (h : SplitInclusive.next (⟨[], last, text⟩ : SplitState α) = some (r, st')) :
    (text.length < last ∧ r = none ∧ st' = ⟨[], last, text⟩) ∨
      (last ≤ text.length ∧ r = some (text.drop last) ∧
        st' = ⟨[], text.length + 1, text⟩) := by
  by_cases hl : text.length < last
  · rw [next_right_nil_done last text hl] at h
    simp only [Option.some.injEq, Prod.mk.injEq] at h
    exact Or.inl ⟨hl, h.1.symm, h.2.symm⟩
  · rw [next_right_nil_drain last text (Nat.not_lt.mp hl)] at h
    simp only [Option.some.injEq, Prod.mk.injEq] at h
    exact Or.inr ⟨Nat.not_lt.mp hl, h.1.symm, h.2.symm⟩

/-- Same inversion for the inclusive-left family. -/
theorem next_left_nil_inv (last : Nat) (text : List α) (r : Option (List α))
    (st' : SplitState α)
    (h : SplitInclusiveLeft.next (⟨[], last, text⟩ : SplitState α) =
      some (r, st')) :
    (text.length < last ∧ r = none ∧ st' = ⟨[], last, text⟩) ∨
      (last ≤ text.length ∧ r = some (text.drop last) ∧
        st' = ⟨[], text.length + 1, text⟩) := by
  by_cases hl : text.length < last
  · rw [next_left_nil_done last text hl] at h
    simp only [Option.some.injEq, Prod.mk.injEq] at h
    exact Or.inl ⟨hl, h.1.symm, h.2.symm⟩
  · rw [next_left_nil_drain last text (Nat.not_lt.mp hl)] at h
    simp only [Option.some.injEq, Prod.mk.injEq] at h
    exact Or.inr ⟨Nat.not_lt.mp hl, h.1.symm, h.2.symm⟩

/-- C4: both splitters are fused: `next` signals end-of-sequence only in the
terminal configuration (Match Source drained and the trailing substring
already emitted), it then leaves the state unchanged and keeps signaling
end-of-sequence; and from any drained, not-yet-emitted configuration the
trailing substring (possibly empty) is emitted exactly once before the
permanent end-of-sequence state. -/
theorem C4_fused (st : SplitState α) :
    (∀ st', SplitInclusive.next st = some (none, st') →
      st.finder = [] ∧ st.text.length < st.last ∧ st' = st ∧
        SplitInclusive.next st' = some (none, st')) ∧
    (∀ st', SplitInclusiveLeft.next st = some (none, st') →
      st.finder = [] ∧ st.text.length < st.last ∧ st' = st ∧
        SplitInclusiveLeft.next st' = some (none, st')) ∧
    (st.finder = [] → st.last ≤ st.text.length →
      ∃ st', SplitInclusive.next st = some (some (st.text.drop st.last), st') ∧
        SplitInclusiveLeft.next st = some (some (st.text.drop st.last), st') ∧
        SplitInclusive.next st' = some (none, st') ∧
        SplitInclusiveLeft.next st' = some (none, st')) := by
  refine ⟨?_, ?_, ?_⟩
  · intro st' h
    obtain ⟨hf, hl, hst⟩ := next_right_none_inv st st' h
    subst hst
    exact ⟨hf, hl, rfl, h⟩
  · intro st' h
    obtain ⟨hf, hl, hst⟩ := next_left_none_inv st st' h
    subst hst
    exact ⟨hf, hl, rfl, h⟩
  · rcases st with ⟨finder, last, text⟩
    intro hf hl
    subst hf
    refine ⟨⟨[], text.length + 1, text⟩, ?_, ?_, ?_, ?_⟩
    · exact next_right_nil_drain last text hl
    · exact next_left_nil_drain last text hl
    · exact next_right_nil_done _ _ (Nat.lt_succ_self _)
    · exact next_left_nil_done _ _ (Nat.lt_succ_self _)

/-- Witness for C4: a terminal state repeats `None` unchanged, and a drained
state emits the trailing substring once, then terminates for good. -/
theorem C4_fused_witness :
    ((⟨[], 2, [3]⟩ : SplitState Nat).finder = [] ∧
      (⟨[], 2, [3]⟩ : SplitState Nat).text.length <
        (⟨[], 2, [3]⟩ : SplitState Nat).last ∧
      (⟨[], 2, [3]⟩ : SplitState Nat) = ⟨[], 2, [3]⟩ ∧
      SplitInclusive.next (⟨[], 2, [3]⟩ : SplitState Nat) =
        some (none, ⟨[], 2, [3]⟩)) ∧
    (∃ st', SplitInclusive.next (⟨[], 0, [3]⟩ : SplitState Nat) =
        some (some [3], st') ∧
      SplitInclusiveLeft.next (⟨[], 0, [3]⟩ : SplitState Nat) =
        some (some [3], st') ∧
      SplitInclusive.next st' = some (none, st') ∧
      SplitInclusiveLeft.next st' = some (none, st')) :=
  ⟨(C4_fused (⟨[], 2, [3]⟩ : SplitState Nat)).1 ⟨[], 2, [3]⟩ (by decide),
    (C4_fused (⟨[], 0, [3]⟩ : SplitState Nat)).2.2 rfl (by decide)⟩

/-- C5: the inclusive-right `next` follows the specified algorithm: on a
match span `[s, e)` with valid offsets it returns the substring `[last, e)`
and sets `last = e`; on first observing exhaustion (`last ≤ length`) it
returns the trailing substring `[last, length)` — even if empty — and
advances `last` to `length + 1` so that branch cannot fire again. -/
theorem C5_right_next_algorithm (st : SplitState α) :
    (∀ m rest, st.finder = m :: rest → st.last ≤ m.stop →
      m.stop ≤ st.text.length →
      SplitInclusive.next st =
        some (some ((st.text.take m.stop).drop st.last),
          ⟨rest, m.stop, st.text⟩)) ∧
    (st.finder = [] → st.last ≤ st.text.length →
      SplitInclusive.next st =
        some (some (st.text.drop st.last),
          ⟨[], st.text.length + 1, st.text⟩)) := by
  rcases st with ⟨finder, last, text⟩
  constructor
  · intro m rest hf h1 h2
    subst hf
    exact next_right_cons m rest last text h1 h2
  · intro hf hl
    subst hf
    exact next_right_nil_drain last text hl

/-- Witness for C5: one match step and one drain step at concrete inputs. -/
theorem C5_right_next_algorithm_witness :
    (⟨[⟨1, 2⟩], 0, [7, 8, 9]⟩ : SplitState Nat).finder = [⟨1, 2⟩] ∧
    (0 : Nat) ≤ (⟨1, 2⟩ : Span).stop ∧
    (⟨1, 2⟩ : Span).stop ≤ ([7, 8, 9] : List Nat).length ∧
    SplitInclusive.next (⟨[⟨1, 2⟩], 0, [7, 8, 9]⟩ : SplitState Nat) =
      some (some [7, 8], ⟨[], 2, [7, 8, 9]⟩) ∧
    SplitInclusive.next (⟨[], 2, [7, 8, 9]⟩ : SplitState Nat) =
      some (some [9], ⟨[], 4, [7, 8, 9]⟩) :=
  ⟨rfl, by decide, by decide,
    (C5_right_next_algorithm _).1 ⟨1, 2⟩ [] rfl (by decide) (by decide),
    (C5_right_next_algorithm _).2 rfl (by decide)⟩

/-- C6: the inclusive-left `next` is the inclusive-right algorithm with the
cut point moved to the match start: on a span `[s, e)` it returns
`[last, s)` and sets `last = s`, so the delimiter is carried forward (the
successor state starts at `s` with the remaining matches); on a drained
Match Source its behavior is identical to the inclusive-right `next`. -/
theorem C6_left_next_algorithm (st : SplitState α) :
    (∀ m rest, st.finder = m :: rest → st.last ≤ m.start →
      m.start ≤ st.text.length →
      SplitInclusiveLeft.next st =
        some (some ((st.text.take m.start).drop st.last),
          ⟨rest, m.start, st.text⟩)) ∧
    (∀ m rest r st', st.finder = m :: rest →
      SplitInclusiveLeft.next st = some (r, st') →
      st'.last = m.start ∧ st'.finder = rest) ∧
    (st.finder = [] → SplitInclusiveLeft.next st = SplitInclusive.next st) := by
  rcases st with ⟨finder, last, text⟩
  refine ⟨?_, ?_, ?_⟩
  · intro m rest hf h1 h2
    subst hf
    exact next_left_cons m rest last text h1 h2
  · intro m rest r st' hf h
    subst hf
    obtain ⟨_, _, _, hst⟩ := next_left_cons_inv m rest last text r st' h
    subst hst
    exact ⟨rfl, rfl⟩
  · intro hf
    subst hf
    rfl

/-- Witness for C6: one left match step at a concrete input, its state
shape, and drained-state agreement with the right variant. -/
theorem C6_left_next_algorithm_witness :
    (⟨[⟨1, 2⟩], 0, [7, 8, 9]⟩ : SplitState Nat).finder = [⟨1, 2⟩] ∧
    (0 : Nat) ≤ (⟨1, 2⟩ : Span).start ∧
    (⟨1, 2⟩ : Span).start ≤ ([7, 8, 9] : List Nat).length ∧
    SplitInclusiveLeft.next (⟨[⟨1, 2⟩], 0, [7, 8, 9]⟩ : SplitState Nat) =
      some (some [7], ⟨[], 1, [7, 8, 9]⟩) ∧
    ((⟨[], 1, [7, 8, 9]⟩ : SplitState Nat).last = (⟨1, 2⟩ : Span).start ∧
      (⟨[], 1, [7, 8, 9]⟩ : SplitState Nat).finder = []) ∧
    SplitInclusiveLeft.next (⟨[], 1, [7, 8, 9]⟩ : SplitState Nat) =
      SplitInclusive.next (⟨[], 1, [7, 8, 9]⟩ : SplitState Nat) :=
  ⟨rfl, by decide, by decide,
    (C6_left_next_algorithm _).1 ⟨1, 2⟩ [] rfl (by decide) (by decide),
    (C6_left_next_algorithm (⟨[⟨1, 2⟩], 0, [7, 8, 9]⟩ : SplitState Nat)).2.1
      ⟨1, 2⟩ [] (some [7]) ⟨[], 1, [7, 8, 9]⟩ rfl (by decide),
    (C6_left_next_algorithm _).2.2 rfl⟩

/-- C7: for both splitters, any successful call to `next` leaves the cursor
`last` greater than or equal to its previous value, so `last` is
monotonically non-decreasing over the iterator's lifetime (here proved with
no contract assumption at all: an out-of-contract span cannot decrease
`last` either, because the slice would abort first). -/
theorem C7_last_monotone (st : SplitState α) (r : Option (List α))
    (st' : SplitState α) :
    (SplitInclusive.next st = some (r, st') → st.last ≤ st'.last) ∧
    (SplitInclusiveLeft.next st = some (r, st') → st.last ≤ st'.last) := by
  rcases st with ⟨finder, last, text⟩
  constructor
  · intro h
    cases finder with
    | nil =>
      rcases next_right_nil_inv last text r st' h with ⟨_, _, hst⟩ | ⟨hl, _, hst⟩ <;>
        subst hst
      · exact Nat.le_refl _
      · exact Nat.le_succ_of_le hl
    | cons m rest =>
      obtain ⟨h1, _, _, hst⟩ := next_right_cons_inv m rest last text r st' h
      subst hst
      exact h1
  · intro h
    cases finder with
    | nil =>
      rcases next_left_nil_inv last text r st' h with ⟨_, _, hst⟩ | ⟨hl, _, hst⟩ <;>
        subst hst
      · exact Nat.le_refl _
      · exact Nat.le_succ_of_le hl
    | cons m rest =>
      obtain ⟨h1, _, _, hst⟩ := next_left_cons_inv m rest last text r st' h
      subst hst
      exact h1

/-- Witness for C7: a concrete successful step of each family. -/
theorem C7_last_monotone_witness :
    (SplitInclusive.next (⟨[⟨0, 1⟩], 0, [5]⟩ : SplitState Nat) =
        some (some [5], ⟨[], 1, [5]⟩) ∧
      (⟨[⟨0, 1⟩], 0, [5]⟩ : SplitState Nat).last ≤
        (⟨[], 1, [5]⟩ : SplitState Nat).last) ∧
    (SplitInclusiveLeft.next (⟨[⟨0, 1⟩], 0, [5]⟩ : SplitState Nat) =
        some (some [], ⟨[], 0, [5]⟩) ∧
      (⟨[⟨0, 1⟩], 0, [5]⟩ : SplitState Nat).last ≤
        (⟨[], 0, [5]⟩ : SplitState Nat).last) :=
  ⟨⟨by decide, (C7_last_monotone ⟨[⟨0, 1⟩], 0, [5]⟩ (some [5]) ⟨[], 1, [5]⟩).1
      (by decide)⟩,
    ⟨by decide, (C7_last_monotone ⟨[⟨0, 1⟩], 0, [5]⟩ (some []) ⟨[], 0, [5]⟩).2
      (by decide)⟩⟩

/-- C8: under the Match Source contract, every slicing operation performed
by `next` of either splitter uses valid cut points, so the abort branch of
the slice (`none`) is unreachable: per step for any state satisfying the
contract invariant, and for the full runs started by the constructors. -/
theorem C8_slices_valid (text : List α) (spans : List Span)
    (hwf : SpansWF text.length 0 spans) :
    (splitInclusiveItems text spans).isSome ∧
    (splitInclusiveLeftItems text spans).isSome ∧
    ∀ st : SplitState α, SpansWF st.text.length st.last st.finder →
      (SplitInclusive.next st).isSome ∧ (SplitInclusiveLeft.next st).isSome := by
  refine ⟨?_, ?_, ?_⟩
  · have h := collectWith_right_eq text spans 0 hwf (Nat.zero_le _)
    show (collectWith SplitInclusive.next (spans.length + 2)
      { finder := spans, last := 0, text := text }).isSome
    rw [h]
    rfl
  · have h := collectWith_left_eq text spans 0 hwf (Nat.zero_le _)
    show (collectWith SplitInclusiveLeft.next (spans.length + 2)
      { finder := spans, last := 0, text := text }).isSome
    rw [h]
    rfl
  · intro st hst
    rcases st with ⟨finder, last, t⟩
    cases finder with
    | nil =>
      by_cases hl : t.length < last
      · rw [next_right_nil_done last t hl, next_left_nil_done last t hl]
        exact ⟨rfl, rfl⟩
      · rw [next_right_nil_drain last t (Nat.not_lt.mp hl),
          next_left_nil_drain last t (Nat.not_lt.mp hl)]
        exact ⟨rfl, rfl⟩
    | cons m rest =>
      obtain ⟨h1, h2, h3, _⟩ := hst
      rw [next_right_cons m rest last t (le_trans h1 h2) h3,
        next_left_cons m rest last t h1 (le_trans h2 h3)]
      exact ⟨rfl, rfl⟩

/-- Witness for C8 at a concrete in-contract input. -/
theorem C8_slices_valid_witness :
    SpansWF ([1, 2] : List Nat).length 0 [⟨0, 1⟩] ∧
    ((splitInclusiveItems ([1, 2] : List Nat) [⟨0, 1⟩]).isSome ∧
      (splitInclusiveLeftItems ([1, 2] : List Nat) [⟨0, 1⟩]).isSome ∧
      ∀ st : SplitState Nat, SpansWF st.text.length st.last st.finder →
        (SplitInclusive.next st).isSome ∧ (SplitInclusiveLeft.next st).isSome) :=
  ⟨by decide, C8_slices_valid [1, 2] [⟨0, 1⟩] (by decide)⟩

/-- C9: on ASCII-only input, where each character is one byte whose value is
the character's code point and the two match sources agree on offsets, the
byte-family splitters applied to the byte representation produce exactly the
byte representations of the text-family splitters' items, element-wise, for
both variants. -/
theorem C9_ascii_byte_text_equiv (text : List Char) (spans : List Span)
    (hascii : ∀ c ∈ text, c.toNat < 128) :
    splitInclusiveItems (asciiBytes text) spans =
      (splitInclusiveItems text spans).map (List.map (List.map Char.toNat)) ∧
    splitInclusiveLeftItems (asciiBytes text) spans =
      (splitInclusiveLeftItems text spans).map (List.map (List.map Char.toNat)) := by
  constructor
  · have h := collectWith_right_mapElems Char.toNat (spans.length + 2)
      (split_inclusive text spans)
    simpa [splitInclusiveItems, split_inclusive, asciiBytes,
      SplitState.mapElems] using h
  · have h := collectWith_left_mapElems Char.toNat (spans.length + 2)
      (split_inclusive_left text spans)
    simpa [splitInclusiveLeftItems, split_inclusive_left, asciiBytes,
      SplitState.mapElems] using h

/-- Witness for C9 at a concrete two-character ASCII input. -/
theorem C9_ascii_byte_text_equiv_witness :
    (∀ c ∈ (['a', 'b'] : List Char), c.toNat < 128) ∧
    (splitInclusiveItems (asciiBytes ['a', 'b']) [⟨0, 1⟩] =
      (splitInclusiveItems ['a', 'b'] [⟨0, 1⟩]).map
        (List.map (List.map Char.toNat)) ∧
    splitInclusiveLeftItems (asciiBytes ['a', 'b']) [⟨0, 1⟩] =
      (splitInclusiveLeftItems ['a', 'b'] [⟨0, 1⟩]).map
        (List.map (List.map Char.toNat))) :=
  ⟨by decide, C9_ascii_byte_text_equiv ['a', 'b'] [⟨0, 1⟩] (by decide)⟩

/-- C10: both splitters are deterministic: two independently constructed
iterators over the same pattern, input and match-span sequence (each built
by the constructor, so starting from `last = 0`) emit identical sequences,
and a step of either splitter depends on nothing besides the three state
components `finder`, `last`, `text`. -/
theorem C10_deterministic (text : List α) (spans : List Span)
    (s1 s2 s3 s4 : SplitState α)
    (h1 : s1 = split_inclusive text spans)
    (h2 : s2 = split_inclusive text spans)
    (h3 : s3 = split_inclusive_left text spans)
    (h4 : s4 = split_inclusive_left text spans) :
    s1.last = 0 ∧ s3.last = 0 ∧
    (∀ fuel, collectWith SplitInclusive.next fuel s1 =
        collectWith SplitInclusive.next fuel s2 ∧
      collectWith SplitInclusiveLeft.next fuel s3 =
        collectWith SplitInclusiveLeft.next fuel s4) ∧
    ∀ st st' : SplitState α, st.finder = st'.finder → st.last = st'.last →
      st.text = st'.text →
      SplitInclusive.next st = SplitInclusive.next st' ∧
      SplitInclusiveLeft.next st = SplitInclusiveLeft.next st' := by
  subst h1; subst h2; subst h3; subst h4
  refine ⟨rfl, rfl, fun fuel => ⟨rfl, rfl⟩, ?_⟩
  intro st st' hf hl ht
  rcases st with ⟨f, l, t⟩
  rcases st' with ⟨f', l', t'⟩
  obtain rfl : f = f' := hf
  obtain rfl : l = l' := hl
  obtain rfl : t = t' := ht
  exact ⟨rfl, rfl⟩

/-- Witness for C10: two iterators freshly constructed over the same input
and empty match sequence. -/
theorem C10_deterministic_witness :
    (split_inclusive ([9] : List Nat) []).last = 0 ∧
    (split_inclusive_left ([9] : List Nat) []).last = 0 ∧
    (∀ fuel, collectWith SplitInclusive.next fuel
          (split_inclusive ([9] : List Nat) []) =
        collectWith SplitInclusive.next fuel
          (split_inclusive ([9] : List Nat) []) ∧
      collectWith SplitInclusiveLeft.next fuel
          (split_inclusive_left ([9] : List Nat) []) =
        collectWith SplitInclusiveLeft.next fuel
          (split_inclusive_left ([9] : List Nat) [])) ∧
    ∀ st st' : SplitState Nat, st.finder = st'.finder → st.last = st'.last →
      st.text = st'.text →
      SplitInclusive.next st = SplitInclusive.next st' ∧
      SplitInclusiveLeft.next st = SplitInclusiveLeft.next st' :=
  C10_deterministic [9] [] _ _ _ _ rfl rfl rfl rfl
